import Mathlib

/-!
Verification of the lease-capping algorithm (src/logical/framework/lease.go)
and of the relational key-value backend (src/physical/mssql/mssql.go).

Durations and instants are modelled as integers (nanoseconds, as in Go
`time.Duration` and `time.Time`); keys are modelled as lists of characters
and values as lists of bytes.
-/

namespace Vault

/-- Lease options attached to an auth or secret context of a request.
`lease` is the `Lease` field, `leaseIncrement` the `LeaseIncrement` field,
and `expirationTime` the value `ExpirationTime()` returns, as it stood
before the call (the `logical.LeaseOptions` struct itself is not among the
sources; its three fields used by `LeaseExtend` are modelled from the
spec's data model). -/
structure LeaseOptions where
  lease : Int
  leaseIncrement : Int
  expirationTime : Int
deriving DecidableEq

/-- A `logical.Request` as far as `LeaseExtend` looks at it: the optional
auth lease context and the optional secret lease context. -/
structure Request where
  auth : Option LeaseOptions
  secret : Option LeaseOptions
deriving DecidableEq

/-- Translation of `detectLease` (src/logical/framework/lease.go): the auth
context takes priority, then the secret context, else there is no lease. -/
def detectLease (req : Request) : Option LeaseOptions :=
  match req.auth with
  | some a => some a
  | none =>
    match req.secret with
    | some s => some s
    | none => none

/-- Modelled from the spec: `LeaseOptions.IncrementedLease` lives in the
`logical` package, which is not among the sources.  The spec says the
naively requested new lease length is "the current lease plus the
requested increment". -/
def incrementedLease (l : LeaseOptions) (ext : Int) : Int :=
  l.lease + ext

/-- Write the (possibly clamped) lease options back through the pointer
returned by `detectLease`: into the auth context when it is present,
otherwise into the secret context. -/
def setDetected (req : Request) (l : LeaseOptions) : Request :=
  match req.auth with
  | some _ => { req with auth := some l }
  | none => { req with secret := some l }

/-- Translation of `LeaseExtend` (src/logical/framework/lease.go).  The
first component is the request after the call (the Go code mutates the
detected lease context in place); the second is the returned response,
which carries `req.Auth` and `req.Secret` of the mutated request, or the
returned error. -/
def leaseExtend (mx now : Int) (req : Request) :
    Request × Except String (Option LeaseOptions × Option LeaseOptions) :=
  match detectLease req with
  | none => (req, Except.error "no lease options for request")
  | some l =>
    let newLease := incrementedLease l l.leaseIncrement
    let maxExpiration := now + mx
    let newExpiration := now + newLease
    let newLease' :=
      if newExpiration - maxExpiration > 0 then
        maxExpiration - l.expirationTime
      else
        newLease
    let req' := setDetected req { l with lease := newLease' }
    (req', Except.ok (req'.auth, req'.secret))

theorem detectLease_setDetected (req : Request) (l₀ l : LeaseOptions)
    (h : detectLease req = some l₀) :
    detectLease (setDetected req l) = some l := by
  obtain ⟨a, s⟩ := req
  cases a <;> cases s <;> simp [detectLease, setDetected] at h ⊢

theorem leaseExtend_clamp_eq (mx now : Int) (req : Request) (l : LeaseOptions)
    (hl : detectLease req = some l)
    (hclamp : (now + incrementedLease l l.leaseIncrement) - (now + mx) > 0) :
    leaseExtend mx now req =
      (setDetected req { l with lease := (now + mx) - l.expirationTime },
       Except.ok
         ((setDetected req { l with lease := (now + mx) - l.expirationTime }).auth,
          (setDetected req { l with lease := (now + mx) - l.expirationTime }).secret)) := by
  simp only [leaseExtend, hl]
  rw [if_pos hclamp]

theorem leaseExtend_noclamp_eq (mx now : Int) (req : Request) (l : LeaseOptions)
    (hl : detectLease req = some l)
    (hnc : ¬ (now + incrementedLease l l.leaseIncrement) - (now + mx) > 0) :
    leaseExtend mx now req =
      (setDetected req { l with lease := incrementedLease l l.leaseIncrement },
       Except.ok
         ((setDetected req { l with lease := incrementedLease l l.leaseIncrement }).auth,
          (setDetected req { l with lease := incrementedLease l l.leaseIncrement }).secret)) := by
  simp only [leaseExtend, hl]
  rw [if_neg hnc]

/-- C6: a renewal request with neither an auth nor a secret lease context
makes `LeaseExtend` fail with the explicit error "no lease options for
request", and the request after the call equals the request before the
call (no field is mutated). -/
theorem leaseExtend_no_context (mx now : Int) (req : Request)
    (hA : req.auth = none) (hS : req.secret = none) :
    leaseExtend mx now req = (req, Except.error "no lease options for request") := by
  simp [leaseExtend, detectLease, hA, hS]

theorem leaseExtend_no_context_witness :
    leaseExtend 3600000000000 0 ⟨none, none⟩ =
      (⟨none, none⟩, Except.error "no lease options for request") :=
  leaseExtend_no_context 3600000000000 0 ⟨none, none⟩ rfl rfl

/-- C1: whenever the naive new expiration `now + (lease + increment)`
exceeds `now + maxOffset`, `LeaseExtend` succeeds and writes into the
lease field `(now + maxOffset) - expirationTime` (the expiration as it
stood before the call), which differs from `(now + maxOffset) - now`
whenever the original expiration is not `now`. -/
theorem leaseExtend_clamped (mx now : Int) (req : Request) (l : LeaseOptions)
    (hl : detectLease req = some l)
    (hclamp : (now + incrementedLease l l.leaseIncrement) - (now + mx) > 0) :
    ∃ req',
      leaseExtend mx now req = (req', Except.ok (req'.auth, req'.secret)) ∧
      detectLease req' = some { l with lease := (now + mx) - l.expirationTime } ∧
      (l.expirationTime ≠ now →
        detectLease req' ≠ some { l with lease := (now + mx) - now }) := by
  refine ⟨setDetected req { l with lease := (now + mx) - l.expirationTime },
    leaseExtend_clamp_eq mx now req l hl hclamp, detectLease_setDetected req l _ hl, ?_⟩
  intro hne heq
  rw [detectLease_setDetected req l _ hl] at heq
  have hAB : (now + mx) - l.expirationTime = (now + mx) - now :=
    congrArg LeaseOptions.lease (Option.some.inj heq)
  exact hne (by omega)

theorem leaseExtend_clamped_witness :
    ∃ req',
      leaseExtend 3600000000000 0
          ⟨some ⟨3600000000000, 7200000000000, 1800000000000⟩, none⟩ =
        (req', Except.ok (req'.auth, req'.secret)) ∧
      detectLease req' =
        some ⟨(0 + 3600000000000) - 1800000000000, 7200000000000, 1800000000000⟩ ∧
      ((1800000000000 : Int) ≠ 0 →
        detectLease req' ≠
          some ⟨(0 + 3600000000000) - 0, 7200000000000, 1800000000000⟩) :=
  leaseExtend_clamped 3600000000000 0
    ⟨some ⟨3600000000000, 7200000000000, 1800000000000⟩, none⟩
    ⟨3600000000000, 7200000000000, 1800000000000⟩ rfl (by decide)

/-- C7 as stated is false on the code: with lease = 1h, increment = 2h,
maxOffset = 3h and original expiration equal to `now`, the naive new lease
is 1h + 2h = 3h, the naive new expiration `now + 3h` does not exceed
`now + 3h`, so no clamping happens and the lease field is set to 3h — not
to the 2h the claim states. -/
theorem leaseExtend_example_not_two_hours :
    detectLease (leaseExtend 10800000000000 0
        ⟨some ⟨3600000000000, 7200000000000, 0⟩, none⟩).1 =
      some ⟨10800000000000, 7200000000000, 0⟩ ∧
    (10800000000000 : Int) ≠ 7200000000000 := by
  decide

/-- C7 amended: when the naive new expiration does not exceed
`now + maxOffset`, `LeaseExtend` succeeds and sets the lease to the
current lease plus the requested increment, unchanged; in particular
lease = 1h, increment = 2h, maxOffset = 3h with original expiration equal
to `now` yields a new lease of exactly 3h with no clamping. -/
theorem leaseExtend_no_clamp (mx now : Int) (req : Request) (l : LeaseOptions)
    (hl : detectLease req = some l)
    (hnc : ¬ (now + incrementedLease l l.leaseIncrement) - (now + mx) > 0) :
    ∃ req',
      leaseExtend mx now req = (req', Except.ok (req'.auth, req'.secret)) ∧
      detectLease req' = some { l with lease := incrementedLease l l.leaseIncrement } :=
  ⟨setDetected req { l with lease := incrementedLease l l.leaseIncrement },
    leaseExtend_noclamp_eq mx now req l hl hnc, detectLease_setDetected req l _ hl⟩

theorem leaseExtend_no_clamp_witness :
    ∃ req',
      leaseExtend 10800000000000 0
          ⟨some ⟨3600000000000, 7200000000000, 0⟩, none⟩ =
        (req', Except.ok (req'.auth, req'.secret)) ∧
      detectLease req' =
        some ⟨3600000000000 + 7200000000000, 7200000000000, 0⟩ :=
  leaseExtend_no_clamp 10800000000000 0
    ⟨some ⟨3600000000000, 7200000000000, 0⟩, none⟩
    ⟨3600000000000, 7200000000000, 0⟩ rfl (by decide)

/-- C10: in the clamped branch, when the original expiration time is at or
past `now + maxOffset`, the admitted lease `(now + maxOffset) -
expirationTime` is zero or negative, and `LeaseExtend` still writes it
into the lease field and returns success rather than an error. -/
theorem leaseExtend_clamped_nonpositive (mx now : Int) (req : Request)
    (l : LeaseOptions) (hl : detectLease req = some l)
    (hclamp : (now + incrementedLease l l.leaseIncrement) - (now + mx) > 0)
    (hpast : l.expirationTime ≥ now + mx) :
    ∃ req',
      leaseExtend mx now req = (req', Except.ok (req'.auth, req'.secret)) ∧
      detectLease req' = some { l with lease := (now + mx) - l.expirationTime } ∧
      (now + mx) - l.expirationTime ≤ 0 :=
  ⟨setDetected req { l with lease := (now + mx) - l.expirationTime },
    leaseExtend_clamp_eq mx now req l hl hclamp,
    detectLease_setDetected req l _ hl, by omega⟩

/-- A key of the backing table, the `Path` column: a Go string, modelled
as its list of characters. -/
abbrev TPath := List Char

/-- A stored value, the `Value` column: an opaque byte blob. -/
abbrev Bytes := List Nat

/-- The backing table: rows of `(Path, Value)` pairs.  `Path` is the
primary key, so well-formed tables have pairwise distinct keys. -/
abbrev Table := List (TPath × Bytes)

/-- A `physical.Entry`: a stored key/value pair. -/
structure Entry where
  key : TPath
  value : Bytes
deriving DecidableEq

/-- The `Path` column of every row of the table. -/
def tableKeys (t : Table) : List TPath :=
  t.map Prod.fst

/-- Semantics of the prepared `put` statement (src/physical/mssql/mssql.go):
`IF EXISTS(SELECT 1 .. WHERE Path = ?) UPDATE .. SET Value = ? WHERE
Path = ? ELSE INSERT .. VALUES(?, ?)`, executed with arguments
`(key, value, key, key, value)`: update the matching row if the key
exists, else insert a new row. -/
def sqlPut (t : Table) (k : TPath) (v : Bytes) : Table :=
  if t.any (fun r => r.1 = k) then
    t.map (fun r => if r.1 = k then (k, v) else r)
  else
    t ++ [(k, v)]

/-- Semantics of the prepared `delete` statement:
`DELETE FROM .. WHERE Path = ?` removes the matching row if present and
succeeds whether or not any row matched. -/
def sqlDelete (t : Table) (k : TPath) : Table :=
  t.filter (fun r => r.1 ≠ k)

/-- Outcome of `QueryRow(key).Scan(&result)` in `Get`: either the driver
signals `sql.ErrNoRows`, or it fails with some other error, or it yields
the stored value. -/
inductive ScanOutcome where
  | errNoRows : ScanOutcome
  | scanErr : String → ScanOutcome
  | value : Bytes → ScanOutcome
deriving DecidableEq

/-- Outcome of a statement `Exec` call in `Put` and `Delete`. -/
inductive ExecOutcome where
  | success : ExecOutcome
  | execErr : String → ExecOutcome
deriving DecidableEq

/-- Error plumbing at the end of `Put` and `Delete`: a driver error is
returned verbatim, otherwise the operation reports no error. -/
def errOfExec : ExecOutcome → Except String Unit
  | ExecOutcome.success => Except.ok ()
  | ExecOutcome.execErr e => Except.error e

/-- Healthy-store scan of the prepared `get` statement
(`SELECT Value FROM .. WHERE Path = ?`): no matching row yields
`sql.ErrNoRows`, a matching row yields its value. -/
def sqlGet (t : Table) (k : TPath) : ScanOutcome :=
  match t.find? (fun r => r.1 = k) with
  | none => ScanOutcome.errNoRows
  | some r => ScanOutcome.value r.2

/-- Translation of the error mapping of `Get`
(src/physical/mssql/mssql.go): `sql.ErrNoRows` becomes "no entry, no
error" (`ok none`), any other scan failure is returned as an error, and a
scanned value becomes the entry for the key. -/
def getOfScan (k : TPath) : ScanOutcome → Except String (Option Entry)
  | ScanOutcome.errNoRows => Except.ok none
  | ScanOutcome.scanErr e => Except.error e
  | ScanOutcome.value v => Except.ok (some ⟨k, v⟩)

/-- `Get` against a healthy store. -/
def mssqlGet (t : Table) (k : TPath) : Except String (Option Entry) :=
  getOfScan k (sqlGet t k)

/-- `Delete` against a healthy store: the statement succeeds whether or
not a row matched, and the method returns the driver outcome verbatim. -/
def mssqlDelete (t : Table) (k : TPath) : Table × Except String Unit :=
  (sqlDelete t k, errOfExec ExecOutcome.success)

theorem find?_map_put (t : Table) (k : TPath) (v : Bytes) :
    (t.map (fun r => if r.1 = k then (k, v) else r)).find? (fun r => r.1 = k) =
      if t.any (fun r => r.1 = k) then some (k, v) else none := by
  induction t with
  | nil => simp
  | cons r rs ih =>
    by_cases hr : r.1 = k
    · simp [hr]
    · simp only [List.map_cons, List.any_cons, if_neg hr]
      rw [List.find?_cons_of_neg _ (by simpa using hr), ih]
      simp only [show decide (r.1 = k) = false from by simpa using hr, Bool.false_or]

theorem find?_sqlPut (t : Table) (k : TPath) (v : Bytes) :
    (sqlPut t k v).find? (fun r => r.1 = k) = some (k, v) := by
  unfold sqlPut
  by_cases h : t.any (fun r => r.1 = k)
  · rw [if_pos h, find?_map_put, if_pos h]
  · rw [if_neg h, List.find?_append]
    have hf : t.find? (fun r => r.1 = k) = none := by
      apply List.find?_eq_none.mpr
      intro x hx hpx
      exact h (List.any_of_mem hx hpx)
    simp [hf]

/-- C4: `Put(k, v)` followed by `Get(k)` returns an entry whose value is
exactly `v`, whether or not `k` already had a row (the `put` statement is
an upsert: update when the key exists, else insert). -/
theorem put_then_get (t : Table) (k : TPath) (v : Bytes) :
    mssqlGet (sqlPut t k v) k = Except.ok (some ⟨k, v⟩) := by
  unfold mssqlGet sqlGet
  rw [find?_sqlPut]
  rfl

theorem sqlGet_sqlDelete (t : Table) (k : TPath) :
    sqlGet (sqlDelete t k) k = ScanOutcome.errNoRows := by
  have hf : (sqlDelete t k).find? (fun r => r.1 = k) = none := by
    apply List.find?_eq_none.mpr
    intro x hx
    have hne := List.of_mem_filter hx
    simpa using hne
  simp [sqlGet, hf]

/-- C5: `Delete(k)` reports no error whether or not a row for `k` exists
(deleting twice reports no error either and leaves the table unchanged),
and `Get(k)` after `Delete(k)` is "absent, no error". -/
theorem delete_idempotent_no_error (t : Table) (k : TPath) :
    (mssqlDelete t k).2 = Except.ok () ∧
    (mssqlDelete (mssqlDelete t k).1 k).2 = Except.ok () ∧
    sqlDelete (sqlDelete t k) k = sqlDelete t k ∧
    mssqlGet (mssqlDelete t k).1 k = Except.ok none := by
  refine ⟨rfl, rfl, ?_, ?_⟩
  · unfold sqlDelete
    rw [List.filter_filter]
    apply List.filter_congr
    intro x _
    simp
  · show mssqlGet (sqlDelete t k) k = Except.ok none
    unfold mssqlGet
    rw [sqlGet_sqlDelete]
    rfl

/-- C3: `Get` on a key with no stored row returns "no entry, no error";
any other scan failure is returned as an error, and an error outcome is
never equal to the absent outcome, so absence and failure are
distinguishable. -/
theorem get_absent_vs_error (t : Table) (k : TPath) (h : k ∉ tableKeys t) :
    mssqlGet t k = Except.ok none ∧
    (∀ e : String, getOfScan k (ScanOutcome.scanErr e) = Except.error e) ∧
    (∀ (e : String) (o : Option Entry),
      (Except.error e : Except String (Option Entry)) ≠ Except.ok o) := by
  refine ⟨?_, fun e => rfl, fun e o h' => by cases h'⟩
  have hf : t.find? (fun r => r.1 = k) = none := by
    apply List.find?_eq_none.mpr
    intro x hx hpx
    have hk : x.1 = k := by simpa using hpx
    exact h (hk ▸ List.mem_map_of_mem Prod.fst hx)
  simp [mssqlGet, sqlGet, hf, getOfScan]

theorem get_absent_vs_error_witness :
    mssqlGet [("a".toList, [0])] "b".toList = Except.ok none ∧
    (∀ e : String,
      getOfScan "b".toList (ScanOutcome.scanErr e) = Except.error e) ∧
    (∀ (e : String) (o : Option Entry),
      (Except.error e : Except String (Option Entry)) ≠ Except.ok o) :=
  get_absent_vs_error [("a".toList, [0])] "b".toList (by decide)

/-- Modelled from the spec: `strutil.AppendIfMissing` (helper/strutil) is
not among the sources; the spec describes the accumulation as
"append-if-absent" deduplication. -/
def appendIfMissing (keys : List TPath) (k : TPath) : List TPath :=
  if k ∈ keys then keys else keys ++ [k]

/-- Translation of `strings.TrimPrefix(key, prefix)`: remove the leading
occurrence of the prefix if present, else return the key unchanged. -/
def trimPref (pre k : TPath) : TPath :=
  if pre.isPrefixOf k then k.drop pre.length else k

/-- Translation of `strings.Index(key, "/")` for the one-character
separator: the position of the first `'/'` in the key, if any (`-1` in Go
becomes `none`). -/
def indexSlash : TPath → Option Nat
  | [] => none
  | c :: cs => if c = '/' then some 0 else (indexSlash cs).map (· + 1)

/-- One iteration of the row loop of `List`
(src/physical/mssql/mssql.go): strip the prefix; if the remainder has no
separator append it, else append-if-absent the first segment with its
separator (`key[:i+1]`). -/
def listStep (pre : TPath) (keys : List TPath) (row : TPath) : List TPath :=
  let key := trimPref pre row
  match indexSlash key with
  | none => keys ++ [key]
  | some i => appendIfMissing keys (key.take (i + 1))

/-- Lexicographic comparison of keys by character code, the order in which
`sort.Strings` sorts Go strings. -/
def keyLe : TPath → TPath → Bool
  | [], _ => true
  | _ :: _, [] => false
  | a :: as, b :: bs =>
    if a.toNat < b.toNat then true
    else if b.toNat < a.toNat then false
    else keyLe as bs

/-- Insertion into a `keyLe`-sorted list of keys. -/
def insertSorted (a : TPath) : List TPath → List TPath
  | [] => [a]
  | b :: bs => if keyLe a b then a :: b :: bs else b :: insertSorted a bs

/-- Model of `sort.Strings`: since `keyLe` is total, transitive and
antisymmetric, every correct sort returns this list. -/
def sortKeys : List TPath → List TPath
  | [] => []
  | a :: as => insertSorted a (sortKeys as)

/-- Rows returned by the prepared `list` statement (`SELECT Path FROM ..
WHERE Path LIKE ?` with argument `prefix + "%"`): the keys of the table
that start with the prefix. -/
def sqlList (t : Table) (pre : TPath) : List TPath :=
  (tableKeys t).filter (fun k => pre.isPrefixOf k)

/-- Translation of `List` (src/physical/mssql/mssql.go): fold the row loop
over the matching keys, then sort. -/
def mssqlList (t : Table) (pre : TPath) : List TPath :=
  sortKeys ((sqlList t pre).foldl (listStep pre) [])

/-- The directory-listing collapse of one stripped key: the full remainder
when it contains no separator, else the first segment followed by the
separator. -/
def collapse (key : TPath) : TPath :=
  match indexSlash key with
  | none => key
  | some i => key.take (i + 1)

theorem keyLe_total (a b : TPath) : keyLe a b = true ∨ keyLe b a = true := by
  induction a generalizing b with
  | nil => left; rfl
  | cons x xs ih =>
    cases b with
    | nil => right; rfl
    | cons y ys =>
      rcases Nat.lt_trichotomy x.toNat y.toNat with h | h | h
      · left; simp [keyLe, h]
      · rcases ih ys with h' | h'
        · left; simp [keyLe, h, h']
        · right; simp [keyLe, h, h']
      · right; simp [keyLe, h]

theorem keyLe_trans (a b c : TPath) (hab : keyLe a b = true)
    (hbc : keyLe b c = true) : keyLe a c = true := by
  induction a generalizing b c with
  | nil => rfl
  | cons x xs ih =>
    cases b with
    | nil => simp [keyLe] at hab
    | cons y ys =>
      cases c with
      | nil => simp [keyLe] at hbc
      | cons z zs =>
        rw [keyLe] at hab hbc ⊢
        by_cases hxy : x.toNat < y.toNat
        · by_cases hyz : y.toNat < z.toNat
          · rw [if_pos (by omega : x.toNat < z.toNat)]
          · by_cases hzy : z.toNat < y.toNat
            · rw [if_neg hyz, if_pos hzy] at hbc
              exact Bool.noConfusion hbc
            · rw [if_pos (by omega : x.toNat < z.toNat)]
        · by_cases hyx : y.toNat < x.toNat
          · rw [if_neg hxy, if_pos hyx] at hab
            exact Bool.noConfusion hab
          · rw [if_neg hxy, if_neg hyx] at hab
            by_cases hyz : y.toNat < z.toNat
            · rw [if_pos (by omega : x.toNat < z.toNat)]
            · by_cases hzy : z.toNat < y.toNat
              · rw [if_neg hyz, if_pos hzy] at hbc
                exact Bool.noConfusion hbc
              · rw [if_neg hyz, if_neg hzy] at hbc
                rw [if_neg (by omega : ¬ x.toNat < z.toNat),
                  if_neg (by omega : ¬ z.toNat < x.toNat)]
                exact ih ys zs hab hbc

theorem mem_insertSorted (a x : TPath) (l : List TPath) :
    x ∈ insertSorted a l ↔ x = a ∨ x ∈ l := by
  induction l with
  | nil => simp [insertSorted]
  | cons b bs ih =>
    by_cases hab : keyLe a b = true
    · rw [insertSorted, if_pos hab]
      simp [List.mem_cons]
    · rw [insertSorted, if_neg hab]
      simp only [List.mem_cons, ih]
      tauto

theorem insertSorted_perm (a : TPath) (l : List TPath) :
    List.Perm (insertSorted a l) (a :: l) := by
  induction l with
  | nil => exact List.Perm.refl _
  | cons b bs ih =>
    by_cases hab : keyLe a b = true
    · rw [insertSorted, if_pos hab]
    · rw [insertSorted, if_neg hab]
      exact List.Perm.trans (List.Perm.cons b ih) (List.Perm.swap a b bs)

theorem sortKeys_perm (l : List TPath) : List.Perm (sortKeys l) l := by
  induction l with
  | nil => exact List.Perm.refl _
  | cons a as ih =>
    exact List.Perm.trans (insertSorted_perm a (sortKeys as)) (List.Perm.cons a ih)

theorem pairwise_insertSorted (a : TPath) (l : List TPath)
    (hl : l.Pairwise (fun x y => keyLe x y = true)) :
    (insertSorted a l).Pairwise (fun x y => keyLe x y = true) := by
  induction l with
  | nil => simp [insertSorted]
  | cons b bs ih =>
    rw [List.pairwise_cons] at hl
    obtain ⟨hb, hbs⟩ := hl
    by_cases hab : keyLe a b = true
    · rw [insertSorted, if_pos hab, List.pairwise_cons]
      refine ⟨?_, List.pairwise_cons.mpr ⟨hb, hbs⟩⟩
      intro x hx
      rcases List.mem_cons.mp hx with rfl | hx
      · exact hab
      · exact keyLe_trans a b x hab (hb x hx)
    · rw [insertSorted, if_neg hab, List.pairwise_cons]
      refine ⟨?_, ih hbs⟩
      intro x hx
      rcases (mem_insertSorted a x bs).mp hx with hxa | hx
      · rw [hxa]
        rcases keyLe_total a b with h | h
        · exact absurd h hab
        · exact h
      · exact hb x hx

theorem pairwise_sortKeys (l : List TPath) :
    (sortKeys l).Pairwise (fun x y => keyLe x y = true) := by
  induction l with
  | nil => exact List.Pairwise.nil
  | cons a as ih => exact pairwise_insertSorted a (sortKeys as) ih

theorem indexSlash_none (key : TPath) (h : indexSlash key = none) :
    '/' ∉ key := by
  induction key with
  | nil => simp
  | cons c cs ih =>
    rw [indexSlash] at h
    by_cases hc : c = '/'
    · rw [if_pos hc] at h; cases h
    · rw [if_neg hc] at h
      rw [Option.map_eq_none'] at h
      intro hmem
      rcases List.mem_cons.mp hmem with h' | h'
      · exact hc h'.symm
      · exact ih h h'

theorem slash_mem_take (key : TPath) (i : Nat)
    (h : indexSlash key = some i) : '/' ∈ key.take (i + 1) := by
  induction key generalizing i with
  | nil => cases h
  | cons c cs ih =>
    rw [indexSlash] at h
    by_cases hc : c = '/'
    · rw [if_pos hc] at h
      have h0 : i = 0 := (Option.some.inj h).symm
      subst h0
      subst hc
      simp
    · rw [if_neg hc] at h
      cases hcs : indexSlash cs with
      | none => rw [hcs] at h; cases h
      | some j =>
        rw [hcs] at h
        have hij : i = j + 1 := (Option.some.inj h).symm
        subst hij
        rw [List.take_succ_cons]
        exact List.mem_cons_of_mem c (ih j hcs)

theorem nodup_append_singleton (x : TPath) (l : List TPath)
    (hx : x ∉ l) (hl : l.Nodup) : (l ++ [x]).Nodup := by
  induction l with
  | nil => simp
  | cons b bs ih =>
    rw [List.nodup_cons] at hl
    rw [List.cons_append, List.nodup_cons]
    refine ⟨?_, ih (fun hm => hx (List.mem_cons_of_mem b hm)) hl.2⟩
    intro hmem
    rcases List.mem_append.mp hmem with h' | h'
    · exact hl.1 h'
    · have hbx : b = x := List.mem_singleton.mp h'
      subst hbx
      exact hx (List.mem_cons_self b bs)

theorem trimPref_inj (pre k₁ k₂ : TPath) (h1 : pre.isPrefixOf k₁ = true)
    (h2 : pre.isPrefixOf k₂ = true)
    (he : trimPref pre k₁ = trimPref pre k₂) : k₁ = k₂ := by
  obtain ⟨t₁, ht₁⟩ := List.isPrefixOf_iff_prefix.mp h1
  obtain ⟨t₂, ht₂⟩ := List.isPrefixOf_iff_prefix.mp h2
  rw [trimPref, if_pos h1, trimPref, if_pos h2] at he
  subst ht₁
  subst ht₂
  rw [List.drop_left, List.drop_left] at he
  rw [he]

theorem mem_listStep (pre : TPath) (keys : List TPath) (row x : TPath) :
    x ∈ listStep pre keys row ↔ x ∈ keys ∨ x = collapse (trimPref pre row) := by
  cases h : indexSlash (trimPref pre row) with
  | none => simp [listStep, collapse, h]
  | some i =>
    simp only [listStep, collapse, h, appendIfMissing]
    by_cases hc : (trimPref pre row).take (i + 1) ∈ keys
    · rw [if_pos hc]
      constructor
      · exact Or.inl
      · rintro (h' | rfl)
        · exact h'
        · exact hc
    · rw [if_neg hc]
      simp [List.mem_append]

theorem mem_foldl_listStep (pre : TPath) (rows : List TPath)
    (acc : List TPath) (x : TPath) :
    x ∈ rows.foldl (listStep pre) acc ↔
      x ∈ acc ∨ ∃ r, r ∈ rows ∧ x = collapse (trimPref pre r) := by
  induction rows generalizing acc with
  | nil => simp
  | cons r rs ih =>
    rw [List.foldl_cons, ih, mem_listStep]
    constructor
    · rintro ((h | h) | ⟨r', hr', rfl⟩)
      · exact Or.inl h
      · exact Or.inr ⟨r, List.mem_cons_self r rs, h⟩
      · exact Or.inr ⟨r', List.mem_cons_of_mem r hr', rfl⟩
    · rintro (h | ⟨r', hr', rfl⟩)
      · exact Or.inl (Or.inl h)
      · rcases List.mem_cons.mp hr' with rfl | hr'
        · exact Or.inl (Or.inr rfl)
        · exact Or.inr ⟨r', hr', rfl⟩

theorem nodup_foldl_listStep (pre : TPath) (rows : List TPath) :
    ∀ acc : List TPath, acc.Nodup →
      (rows.map (trimPref pre)).Nodup →
      (∀ r ∈ rows, indexSlash (trimPref pre r) = none → trimPref pre r ∉ acc) →
      (rows.foldl (listStep pre) acc).Nodup := by
  induction rows with
  | nil => intro acc hacc _ _; simpa using hacc
  | cons r rs ih =>
    intro acc hacc hmap hfresh
    rw [List.foldl_cons]
    rw [List.map_cons, List.nodup_cons] at hmap
    obtain ⟨hnotin, hmap'⟩ := hmap
    cases hidx : indexSlash (trimPref pre r) with
    | none =>
      have hstep : listStep pre acc r = acc ++ [trimPref pre r] := by
        simp [listStep, hidx]
      rw [hstep]
      apply ih
      · exact nodup_append_singleton _ _ (hfresh r (List.mem_cons_self r rs) hidx) hacc
      · exact hmap'
      · intro r' hr' hnone hmem
        rcases List.mem_append.mp hmem with hmem' | hmem'
        · exact hfresh r' (List.mem_cons_of_mem r hr') hnone hmem'
        · have heq : trimPref pre r' = trimPref pre r := List.mem_singleton.mp hmem'
          exact hnotin (heq ▸ List.mem_map_of_mem (trimPref pre) hr')
    | some i =>
      have hstep : listStep pre acc r =
          appendIfMissing acc ((trimPref pre r).take (i + 1)) := by
        simp [listStep, hidx]
      rw [hstep]
      rw [appendIfMissing]
      by_cases hc : (trimPref pre r).take (i + 1) ∈ acc
      · rw [if_pos hc]
        exact ih acc hacc hmap'
          (fun r' hr' hn => hfresh r' (List.mem_cons_of_mem r hr') hn)
      · rw [if_neg hc]
        apply ih
        · exact nodup_append_singleton _ _ hc hacc
        · exact hmap'
        · intro r' hr' hnone hmem
          rcases List.mem_append.mp hmem with hmem' | hmem'
          · exact hfresh r' (List.mem_cons_of_mem r hr') hnone hmem'
          · have heq : trimPref pre r' = (trimPref pre r).take (i + 1) :=
              List.mem_singleton.mp hmem'
            have hs : '/' ∈ (trimPref pre r).take (i + 1) := slash_mem_take _ i hidx
            exact indexSlash_none _ hnone (heq ▸ hs)

theorem nodup_map_trim (t : Table) (pre : TPath)
    (hnd : (tableKeys t).Nodup) : ((sqlList t pre).map (trimPref pre)).Nodup := by
  apply List.Nodup.map_on
  · intro x hx y hy he
    have hx' := List.mem_filter.mp hx
    have hy' := List.mem_filter.mp hy
    exact trimPref_inj pre x y hx'.2 hy'.2 he
  · exact List.Nodup.filter _ hnd

/-- C2: `List(prefix)` returns exactly the collapse of every stored key
that starts with the prefix (the stripped remainder when it has no
separator, else its first segment followed by the separator), with no
duplicates, in ascending lexicographic order; the stored keys
`a/b, a/c, a/d/e` with prefix `a/` yield `[b, c, d/]`. -/
theorem list_correct (t : Table) (pre : TPath) (hnd : (tableKeys t).Nodup) :
    (∀ x, x ∈ mssqlList t pre ↔
      ∃ k, k ∈ tableKeys t ∧ pre.isPrefixOf k = true ∧
        x = collapse (trimPref pre k)) ∧
    (mssqlList t pre).Nodup ∧
    (mssqlList t pre).Pairwise (fun a b => keyLe a b = true) ∧
    mssqlList [("a/b".toList, []), ("a/c".toList, []), ("a/d/e".toList, [])]
        "a/".toList = ["b".toList, "c".toList, "d/".toList] := by
  refine ⟨?_, ?_, pairwise_sortKeys _, by decide⟩
  · intro x
    rw [mssqlList, (sortKeys_perm _).mem_iff, mem_foldl_listStep]
    simp only [List.not_mem_nil, false_or]
    constructor
    · rintro ⟨r, hr, rfl⟩
      have hm := List.mem_filter.mp hr
      exact ⟨r, hm.1, hm.2, rfl⟩
    · rintro ⟨k, hk, hp, rfl⟩
      exact ⟨k, List.mem_filter.mpr ⟨hk, hp⟩, rfl⟩
  · rw [mssqlList, (sortKeys_perm _).nodup_iff]
    exact nodup_foldl_listStep pre (sqlList t pre) [] List.nodup_nil
      (nodup_map_trim t pre hnd) (fun r _ _ h => (List.not_mem_nil _ h).elim)

theorem list_correct_witness :
    (∀ x, x ∈ mssqlList
        [("a/b".toList, []), ("a/c".toList, []), ("a/d/e".toList, [])]
        "a/".toList ↔
      ∃ k, k ∈ tableKeys
          [("a/b".toList, []), ("a/c".toList, []), ("a/d/e".toList, [])] ∧
        "a/".toList.isPrefixOf k = true ∧
        x = collapse (trimPref "a/".toList k)) ∧
    (mssqlList [("a/b".toList, []), ("a/c".toList, []), ("a/d/e".toList, [])]
        "a/".toList).Nodup ∧
    (mssqlList [("a/b".toList, []), ("a/c".toList, []), ("a/d/e".toList, [])]
        "a/".toList).Pairwise (fun a b => keyLe a b = true) ∧
    mssqlList [("a/b".toList, []), ("a/c".toList, []), ("a/d/e".toList, [])]
        "a/".toList = ["b".toList, "c".toList, "d/".toList] :=
  list_correct [("a/b".toList, []), ("a/c".toList, []), ("a/d/e".toList, [])]
    "a/".toList (by decide)

theorem leaseExtend_clamped_nonpositive_witness :
    ∃ req',
      leaseExtend 10 0 ⟨none, some ⟨5, 20, 15⟩⟩ =
        (req', Except.ok (req'.auth, req'.secret)) ∧
      detectLease req' = some ⟨(0 + 10) - 15, 20, 15⟩ ∧
      ((0 : Int) + 10) - 15 ≤ 0 :=
  leaseExtend_clamped_nonpositive 10 0 ⟨none, some ⟨5, 20, 15⟩⟩ ⟨5, 20, 15⟩
    rfl (by decide) (by decide)

/-- Outcome of the `sys.schemas` existence probe in `NewMSSQLBackend`: a
row was found, no rows (`sql.ErrNoRows`), or some other query error. -/
inductive ProbeOutcome where
  | rowFound : ProbeOutcome
  | noRows : ProbeOutcome
  | probeErr : String → ProbeOutcome
deriving DecidableEq

/-- Store behaviour during construction: the outcome of each bootstrap
statement and of preparing each named statement (`none` means the
statement succeeded). -/
structure DbEnv where
  createDbErr : Option String
  useDbErr : Option String
  schemaProbe : ProbeOutcome
  createSchemaErr : Option String
  createTableErr : Option String
  prepareErr : String → Option String

/-- A constructed backend: the fully qualified table name and the names of
the prepared statements held in the registry. -/
structure Backend where
  dbTable : String
  statements : List String
deriving DecidableEq

/-- The named statements prepared by `NewMSSQLBackend`. -/
def statementNames : List String := ["put", "get", "delete", "list"]

/-- Translation of the preparation loop of `NewMSSQLBackend` together with
`prepare` (src/physical/mssql/mssql.go): the first failing preparation is
returned, wrapped with the statement name. -/
def prepareAll (env : DbEnv) : List String → Except String (List String)
  | [] => Except.ok []
  | n :: ns =>
    match env.prepareErr n with
    | some e => Except.error ("failed to prepare " ++ n ++ ": " ++ e)
    | none =>
      match prepareAll env ns with
      | Except.error e => Except.error e
      | Except.ok ss => Except.ok (n :: ss)

/-- Translation of the schema steps of `NewMSSQLBackend`: when a
non-default schema is configured, switch to the database, probe
`sys.schemas` (distinguishing "no rows" from other errors), and create the
schema when the probe reports no rows. -/
def schemaSteps (schema : String) (env : DbEnv) : Except String Unit :=
  if schema = "dbo" then Except.ok ()
  else
    match env.useDbErr with
    | some e => Except.error ("failed to switch mssql database: " ++ e)
    | none =>
      match env.schemaProbe with
      | ProbeOutcome.noRows =>
        match env.createSchemaErr with
        | some e => Except.error ("failed to create mssql schema: " ++ e)
        | none => Except.ok ()
      | ProbeOutcome.probeErr e =>
        Except.error ("failed to check if mssql schema exists: " ++ e)
      | ProbeOutcome.rowFound => Except.ok ()

/-- Translation of the bootstrap and statement-preparation sequence of
`NewMSSQLBackend` (src/physical/mssql/mssql.go): create the database if
absent, run the schema steps, create the table if absent, then prepare the
four named statements; the first failure is returned immediately and no
backend is built. -/
def newMSSQLBackend (database schema table : String) (env : DbEnv) :
    Except String Backend :=
  match env.createDbErr with
  | some e => Except.error ("failed to create mssql database: " ++ e)
  | none =>
    match schemaSteps schema env with
    | Except.error e => Except.error e
    | Except.ok _ =>
      match env.createTableErr with
      | some e => Except.error ("failed to create mssql table: " ++ e)
      | none =>
        match prepareAll env statementNames with
        | Except.error e => Except.error e
        | Except.ok ss =>
          Except.ok
            { dbTable := database ++ "." ++ schema ++ "." ++ table,
              statements := ss }

theorem prepareAll_ok (env : DbEnv) (ns : List String) (ss : List String)
    (h : prepareAll env ns = Except.ok ss) :
    ∀ n ∈ ns, env.prepareErr n = none := by
  induction ns generalizing ss with
  | nil => intro n hn; cases hn
  | cons m ms ih =>
    intro n hn
    rw [prepareAll] at h
    cases hm : env.prepareErr m with
    | some e => rw [hm] at h; cases h
    | none =>
      rw [hm] at h
      cases hp : prepareAll env ms with
      | error e => rw [hp] at h; cases h
      | ok ss' =>
        rcases List.mem_cons.mp hn with rfl | hn'
        · exact hm
        · exact ih ss' hp n hn'

theorem newMSSQLBackend_ok (database schema table : String) (env : DbEnv)
    (b : Backend)
    (h : newMSSQLBackend database schema table env = Except.ok b) :
    env.createDbErr = none ∧ schemaSteps schema env = Except.ok () ∧
      env.createTableErr = none ∧
      ∀ n ∈ statementNames, env.prepareErr n = none := by
  rw [newMSSQLBackend] at h
  cases h1 : env.createDbErr with
  | some e => rw [h1] at h; cases h
  | none =>
    rw [h1] at h
    cases h2 : schemaSteps schema env with
    | error e => rw [h2] at h; cases h
    | ok u =>
      cases u
      rw [h2] at h
      cases h3 : env.createTableErr with
      | some e => rw [h3] at h; cases h
      | none =>
        rw [h3] at h
        cases h4 : prepareAll env statementNames with
        | error e => rw [h4] at h; cases h
        | ok ss =>
          exact ⟨rfl, rfl, rfl, prepareAll_ok env statementNames ss h4⟩

/-- C8: if any bootstrap step (database creation, schema switch, schema
probe, schema creation, table creation) or any named statement
preparation fails during construction, `NewMSSQLBackend` returns an error
and no backend instance. -/
theorem newMSSQLBackend_fail_fast (database schema table : String)
    (env : DbEnv)
    (hfail : env.createDbErr ≠ none ∨ schemaSteps schema env ≠ Except.ok () ∨
      env.createTableErr ≠ none ∨
      ∃ n ∈ statementNames, env.prepareErr n ≠ none) :
    (∃ e, newMSSQLBackend database schema table env = Except.error e) ∧
      ∀ b, newMSSQLBackend database schema table env ≠ Except.ok b := by
  cases hres : newMSSQLBackend database schema table env with
  | ok b =>
    obtain ⟨h1, h2, h3, h4⟩ := newMSSQLBackend_ok database schema table env b hres
    rcases hfail with h | h | h | ⟨n, hn, hne⟩
    · exact absurd h1 h
    · exact absurd h2 h
    · exact absurd h3 h
    · exact absurd (h4 n hn) hne
  | error e =>
    exact ⟨⟨e, rfl⟩, fun b hb => by cases hb⟩

theorem newMSSQLBackend_fail_fast_witness :
    (∃ e, newMSSQLBackend "Vault" "dbo" "Vault"
        ⟨some "boom", none, ProbeOutcome.rowFound, none, none, fun _ => none⟩ =
      Except.error e) ∧
    ∀ b, newMSSQLBackend "Vault" "dbo" "Vault"
        ⟨some "boom", none, ProbeOutcome.rowFound, none, none, fun _ => none⟩ ≠
      Except.ok b :=
  newMSSQLBackend_fail_fast "Vault" "dbo" "Vault"
    ⟨some "boom", none, ProbeOutcome.rowFound, none, none, fun _ => none⟩
    (Or.inl (by simp))

/-- Modelled from the spec: the `physical.PermitPool` used by the backend
is not among the sources; the spec describes it as a counting semaphore of
fixed capacity.  Phase of one of `n` concurrent callers of
Put/Get/Delete/List: not yet started, holding a permit while its statement
executes against the store, or finished (its deferred release ran). -/
inductive OpPhase where
  | idle : OpPhase
  | holding : OpPhase
  | done : OpPhase
deriving DecidableEq

/-- Number of callers currently holding a permit, i.e. executing their
statement. -/
def holders {n : Nat} (s : Fin n → OpPhase) : Nat :=
  ∑ j : Fin n, if s j = OpPhase.holding then 1 else 0

/-- Reachable configurations of `n` concurrent callers against a permit
pool of capacity `cap`: initially every caller is idle; a caller acquires
a permit (and starts executing its statement) only when fewer than `cap`
permits are outstanding, blocking otherwise; a caller holding a permit
may finish — successfully or with an operation error — and its deferred
release returns the permit on either exit path. -/
inductive GateReach (cap : Nat) {n : Nat} : (Fin n → OpPhase) → Prop where
  | init : GateReach cap (fun _ => OpPhase.idle)
  | acquire (s : Fin n → OpPhase) (i : Fin n) :
      GateReach cap s → s i = OpPhase.idle → holders s < cap →
      GateReach cap (Function.update s i OpPhase.holding)
  | finish (s : Fin n → OpPhase) (i : Fin n) (success : Bool) :
      GateReach cap s → s i = OpPhase.holding →
      GateReach cap (Function.update s i OpPhase.done)

theorem holders_update {n : Nat} (s : Fin n → OpPhase) (i : Fin n)
    (v : OpPhase) :
    holders (Function.update s i v) +
        (if s i = OpPhase.holding then 1 else 0) =
      holders s + (if v = OpPhase.holding then 1 else 0) := by
  classical
  have hfun : (fun j => if Function.update s i v j = OpPhase.holding
        then (1 : Nat) else 0) =
      Function.update
        (fun j => if s j = OpPhase.holding then (1 : Nat) else 0) i
        (if v = OpPhase.holding then (1 : Nat) else 0) := by
    funext j
    by_cases hj : j = i
    · subst hj
      rw [Function.update_same, Function.update_same]
    · rw [Function.update_noteq hj, Function.update_noteq hj]
  have h1 : holders (Function.update s i v) =
      (if v = OpPhase.holding then (1 : Nat) else 0) +
        ∑ j ∈ Finset.univ \ {i},
          (if s j = OpPhase.holding then (1 : Nat) else 0) := by
    unfold holders
    rw [hfun]
    exact Finset.sum_update_of_mem (Finset.mem_univ i) _ _
  have h2 : holders s =
      (if s i = OpPhase.holding then (1 : Nat) else 0) +
        ∑ j ∈ Finset.univ \ {i},
          (if s j = OpPhase.holding then (1 : Nat) else 0) := by
    have hself : Function.update s i (s i) = s := Function.update_eq_self i s
    have := h1
    calc holders s = holders (Function.update s i (s i)) := by rw [hself]
      _ = (if s i = OpPhase.holding then (1 : Nat) else 0) +
            ∑ j ∈ Finset.univ \ {i},
              (if s j = OpPhase.holding then (1 : Nat) else 0) := by
          unfold holders
          rw [show (fun j => if Function.update s i (s i) j = OpPhase.holding
                then (1 : Nat) else 0) =
              Function.update
                (fun j => if s j = OpPhase.holding then (1 : Nat) else 0) i
                (if s i = OpPhase.holding then (1 : Nat) else 0) from by
            funext j
            by_cases hj : j = i
            · subst hj
              rw [Function.update_same, Function.update_same]
            · rw [Function.update_noteq hj, Function.update_noteq hj]]
          exact Finset.sum_update_of_mem (Finset.mem_univ i) _ _
  rw [h1, h2]
  omega

/-- C9: in every reachable configuration of `n` concurrent callers of
Put/Get/Delete/List against a permit pool of capacity `cap`, at most `cap`
of them hold a permit (execute a statement against the store)
simultaneously; by construction of the reachable configurations, a permit
is acquired before the statement runs and is released when the caller
finishes, on success and on error alike. -/
theorem gate_holders_le_cap (cap n : Nat) (s : Fin n → OpPhase)
    (h : GateReach cap s) : holders s ≤ cap := by
  induction h with
  | init => simp [holders]
  | acquire s i hr hidle hlt ih =>
    have hu := holders_update s i OpPhase.holding
    rw [hidle] at hu
    simp at hu
    omega
  | finish s i success hr hhold ih =>
    have hu := holders_update s i OpPhase.done
    rw [hhold] at hu
    simp at hu
    omega

theorem gate_holders_le_cap_witness :
    holders (Function.update (fun _ : Fin 3 => OpPhase.idle)
      (0 : Fin 3) OpPhase.holding) ≤ 2 :=
  gate_holders_le_cap 2 3 _
    (GateReach.acquire _ (0 : Fin 3) GateReach.init rfl (by decide))

end Vault
